import Mathlib

/-!
# Verification of the GIIS line-rasterization tool

The repository is a single-window drawing application (`src/lab1/main.py`)
that rasterizes a line segment between two clicked grid points using one of
three selectable algorithms (DDA, Bresenham, Wu).  The algorithm classes are
imported from `scripts.line_algorithms`, a module that is not part of the
provided sources, so those three algorithms are modelled here from the
specification; the GUI event handlers of `main.py` are embedded directly
from the Python source.
-/

/-! ## Rasterization core (modelled from the spec) -/

/-- A colored grid cell: integer grid coordinates and a blend weight `w`
toward the foreground color; `w = 1` is a fully opaque foreground cell. -/
structure Cell where
  x : Int
  y : Int
  w : ℚ
  deriving DecidableEq, Repr

/-- Modelled from the spec: the DDA algorithm of the absent module
`scripts.line_algorithms`.  `steps = max (|dx|, |dy|)`; if `steps = 0` emit
the single start cell, otherwise sample `steps + 1` points with real-valued
increments `dx/steps`, `dy/steps` accumulated from the start (in exact
rational arithmetic the `i`-th accumulated value is `start + i * inc`) and
round each sample to the nearest integer cell; every cell is opaque. -/
def DDA (sx sy ex ey : Int) : List Cell :=
  let dx := ex - sx
  let dy := ey - sy
  let steps := max dx.natAbs dy.natAbs
  if steps = 0 then [⟨sx, sy, 1⟩]
  else
    (List.range (steps + 1)).map fun (i : Nat) =>
      ⟨round ((sx : ℚ) + (i : ℚ) * ((dx : ℚ) / (steps : ℚ))),
       round ((sy : ℚ) + (i : ℚ) * ((dy : ℚ) / (steps : ℚ))), 1⟩

/-- Modelled from the spec: the incremental error loop of Bresenham's
algorithm.  `a` is the major-axis delta, `b` the minor-axis delta (both
taken absolute), `plot i k` places the cell after `i` major and `k` minor
unit steps.  The decision error `d` starts from `2*b - a`; each iteration
emits a cell, steps the minor axis when `d > 0` (subtracting `2*a`), and
always adds `2*b` while stepping the major axis.  The `Nat` argument is the
number of iterations remaining after the cell being emitted. -/
def bresAux (a b : Int) (plot : Int → Int → Cell) : Nat → Int → Int → Int → List Cell
  | 0, i, k, _ => [plot i k]
  | n + 1, i, k, d =>
      plot i k ::
        (if 0 < d then bresAux a b plot n (i + 1) (k + 1) (d + 2 * b - 2 * a)
         else bresAux a b plot n (i + 1) k (d + 2 * b))

/-- Modelled from the spec: Bresenham's algorithm of the absent module
`scripts.line_algorithms`.  The dominant axis is whichever of `|dx|, |dy|`
is larger; sign handling of the four octant combinations goes through
`Int.sign`; all emitted cells are opaque. -/
def Bresenham (sx sy ex ey : Int) : List Cell :=
  let dx := ex - sx
  let dy := ey - sy
  let a : Int := dx.natAbs
  let b : Int := dy.natAbs
  if dy.natAbs ≤ dx.natAbs then
    bresAux a b (fun i k => ⟨sx + dx.sign * i, sy + dy.sign * k, 1⟩)
      dx.natAbs 0 0 (2 * b - a)
  else
    bresAux b a (fun i k => ⟨sx + dx.sign * k, sy + dy.sign * i, 1⟩)
      dy.natAbs 0 0 (2 * a - b)

/-- The accumulated minor-axis value of Wu's algorithm after `i` unit steps
along the major axis: starting from `sm`, each step adds
`sign dM * (dm / dM)`, i.e. `dm / |dM|`. -/
def wuY (sm dM dm : Int) (i : Nat) : ℚ :=
  (sm : ℚ) + ((dM.sign * i : Int) : ℚ) * ((dm : ℚ) / (dM : ℚ))

/-- Modelled from the spec: one axis-orientation of Wu's algorithm.  Step
the major axis from `sM` by `sign dM` for `|dM| + 1` samples; at each sample
emit the pair of cells at `⌊y⌋` and `⌊y⌋ + 1` with weights `1 - frac y` and
`frac y`; `mk major minor w` packs a cell for the chosen orientation. -/
def wuSteps (sM sm dM dm : Int) (mk : Int → Int → ℚ → Cell) : List (Cell × Cell) :=
  (List.range (dM.natAbs + 1)).map fun (i : Nat) =>
    let M := sM + dM.sign * i
    let y := wuY sm dM dm i
    (mk M ⌊y⌋ (1 - Int.fract y), mk M (⌊y⌋ + 1) (Int.fract y))

/-- Modelled from the spec: the per-step cell pairs of Wu's algorithm for a
non-degenerate segment.  For `|slope| ≤ 1` iterate along x and interpolate
y; otherwise swap the roles of x and y. -/
def wuPairs (sx sy ex ey : Int) : List (Cell × Cell) :=
  let dx := ex - sx
  let dy := ey - sy
  if dy.natAbs ≤ dx.natAbs then
    wuSteps sx sy dx dy (fun M m w => ⟨M, m, w⟩)
  else
    wuSteps sy sx dy dx (fun M m w => ⟨m, M, w⟩)

/-- Modelled from the spec: Wu's algorithm of the absent module
`scripts.line_algorithms`.  A degenerate segment yields one fully opaque
cell; otherwise the per-step pairs are emitted in order. -/
def Wu (sx sy ex ey : Int) : List Cell :=
  if sx = ex ∧ sy = ey then [⟨sx, sy, 1⟩]
  else (wuPairs sx sy ex ey).flatMap fun p => [p.1, p.2]

/-! ## GUI layer (embedded from src/lab1/main.py) -/

/-- The three line-algorithm classes imported from `scripts.line_algorithms`
and stored in `_current_line_algorithm`. -/
inductive LineAlg where
  | dda
  | bresenham
  | wu
  deriving DecidableEq, Repr

/-- Modelled from the spec: the missing module's algorithm objects expose
`get_points()` returning the rasterized cells as `(x, y, color)` triples;
the color string encodes the cell's blend weight (the exact 8-bit rounding
of the blend is left open by the spec, so an injective encoding of the
weight stands for it). -/
def getPoints (alg : LineAlg) (sx sy ex ey : Int) : List (Int × Int × String) :=
  (match alg with
   | .dda => DDA sx sy ex ey
   | .bresenham => Bresenham sx sy ex ey
   | .wu => Wu sx sy ex ey).map fun (c : Cell) => (c.x, c.y, toString c.w)

/-- An object living on the tkinter canvas, in creation order. -/
inductive CanvasObj where
  | oval (x0 y0 x1 y1 : Int) (fill : String)
  | rect (x0 y0 x1 y1 : Int) (outline : String) (fill : String)
  | line (x0 y0 x1 y1 : Int) (fill : String) (tag : String)
  deriving DecidableEq, Repr

/-- The mutable attributes of `DrawingApp` touched by the embedded handlers.
`_current_curve_algorithm` and `_current_parametric_algorithm` are never
assigned a non-`None` value anywhere in `main.py`; they are typed here like
the line slot so that the handler's dispatch chain can be stated over all
states. -/
structure AppState where
  title : String
  grid_size : Int
  start_x : Option Int
  start_y : Option Int
  current_line_algorithm : Option LineAlg
  current_curve_algorithm : Option LineAlg
  current_parametric_algorithm : Option LineAlg
  debug_mode : Bool
  canvas : List CanvasObj
  deriving DecidableEq, Repr

/-- A mouse event: pixel coordinates of the click. -/
structure Event where
  x : Int
  y : Int
  deriving DecidableEq, Repr

/-- The state built by `DrawingApp.__init__`: title "Drawing App",
`_grid_size = 5`, no pending start point, no selected algorithm, debug mode
off.  The grid lines drawn by `_draw_grid` depend on the runtime widget
size and are abstracted as the parameter `canvas0`. -/
def initState (canvas0 : List CanvasObj) : AppState :=
  { title := "Drawing App"
    grid_size := 5
    start_x := none
    start_y := none
    current_line_algorithm := none
    current_curve_algorithm := none
    current_parametric_algorithm := none
    debug_mode := false
    canvas := canvas0 }

/-- `self._canvas.create_oval(x0, y0, x1, y1, fill=...)`. -/
def create_oval (s : AppState) (x0 y0 x1 y1 : Int) (fill : String) : AppState :=
  { s with canvas := s.canvas ++ [CanvasObj.oval x0 y0 x1 y1 fill] }

/-- `_draw_points`: one grid-scaled black-outlined rectangle per point,
filled with the point's color. -/
def draw_points (s : AppState) (points : List (Int × Int × String)) : AppState :=
  points.foldl (fun st p =>
    { st with canvas := st.canvas ++
        [CanvasObj.rect (p.1 * st.grid_size) (p.2.1 * st.grid_size)
          ((p.1 + 1) * st.grid_size) ((p.2.1 + 1) * st.grid_size) "black" p.2.2] }) s

/-- `_draw_points_with_latency`, run to completion: starting from `index`,
draw the rectangle for `points[index]` and recurse on `index + 1` (in the
source the recursion is rescheduled through `self.after(50, ...)`; the
delay and the debug print have no effect on the canvas). -/
def draw_points_with_latency (s : AppState) (points : List (Int × Int × String))
    (index : Nat) : AppState :=
  if h : points.length ≤ index then s
  else
    let p := points.get ⟨index, by omega⟩
    draw_points_with_latency
      { s with canvas := s.canvas ++
          [CanvasObj.rect (p.1 * s.grid_size) (p.2.1 * s.grid_size)
            ((p.1 + 1) * s.grid_size) ((p.2.1 + 1) * s.grid_size) "black" p.2.2] }
      points (index + 1)
  termination_by points.length - index

/-- The `if/elif/elif/else` dispatch of `_on_canvas_click` (lines 74-81):
construct the selected algorithm on the segment and take its points;
`none` models reaching the `raise` in the final `else`. -/
def dispatchAlgorithm (s : AppState) (sx sy ex ey : Int) :
    Option (List (Int × Int × String)) :=
  match s.current_line_algorithm with
  | some alg => some (getPoints alg sx sy ex ey)
  | none =>
    match s.current_curve_algorithm with
    | some alg => some (getPoints alg sx sy ex ey)
    | none =>
      match s.current_parametric_algorithm with
      | some alg => some (getPoints alg sx sy ex ey)
      | none => none

/-- The second-click half of `_on_canvas_click` (lines 68-90): the red
marker oval, the algorithm dispatch on `(start, end)`, drawing the returned
points (animated in debug mode), and clearing the pending start point.
Returns the new state and whether a warning was shown; `none` models an
uncaught exception. -/
def handleSecondClick (s : AppState) (sx sy end_x end_y : Int) (e : Event) :
    Option (AppState × Bool) :=
  let s1 := create_oval s (e.x - 3) (e.y - 3) (e.x + 3) (e.y + 3) "red"
  match dispatchAlgorithm s1 sx sy end_x end_y with
  | none => none
  | some points_to_draw =>
    let s2 := if s1.debug_mode then draw_points_with_latency s1 points_to_draw 0
              else draw_points s1 points_to_draw
    some ({ s2 with start_x := none, start_y := none }, false)

/-- `_on_canvas_click`: warn and return if no algorithm is selected (the
three slots only ever hold `None` or a class object, so Python truthiness
coincides with `is not None`); on a first click record
`event.x // grid_size, event.y // grid_size` and mark it with a red oval;
on a second click run `handleSecondClick` on the grid-mapped end point.
Returns the new state and whether the warning box was shown; `none` models
an uncaught exception (including the impossible `start_y is None` read on
the second click). -/
def on_canvas_click (s : AppState) (e : Event) : Option (AppState × Bool) :=
  if (s.current_line_algorithm.isSome || s.current_curve_algorithm.isSome
      || s.current_parametric_algorithm.isSome) = false then
    some (s, true)
  else
    match s.start_x with
    | none =>
      let s1 := { s with start_x := some (Int.fdiv e.x s.grid_size)
                         start_y := some (Int.fdiv e.y s.grid_size) }
      some (create_oval s1 (e.x - 3) (e.y - 3) (e.x + 3) (e.y + 3) "red", false)
    | some sx =>
      match s.start_y with
      | none => none
      | some sy =>
        handleSecondClick s sx sy (Int.fdiv e.x s.grid_size)
          (Int.fdiv e.y s.grid_size) e

/-- `_uncheck_all_algorithms`: clears the line-algorithm slot. -/
def uncheck_all_algorithms (s : AppState) : AppState :=
  { s with current_line_algorithm := none }

/-- `_set_line_algorithm`: uncheck everything, then `match` on the label to
install the algorithm class and retitle the window. -/
def set_line_algorithm (s : AppState) (algorithm : String) : AppState :=
  let s0 := uncheck_all_algorithms s
  match algorithm with
  | "DDA" => { s0 with current_line_algorithm := some .dda, title := "DDA" }
  | "Bresenham" => { s0 with current_line_algorithm := some .bresenham, title := "Bresenham" }
  | "Wu" => { s0 with current_line_algorithm := some .wu, title := "Wu" }
  | _ => s0

/-- A concrete application state with the DDA line algorithm selected, used
to exercise the handlers on concrete inputs. -/
def sampleState : AppState :=
  { initState [] with current_line_algorithm := some LineAlg.dda }

/-! ## Theorems -/

/-- C2: calling any of the three algorithms with start = end = p returns
exactly one cell, equal to p, fully opaque. -/
theorem degenerate_segment_single_cell (px py : Int) :
    DDA px py px py = [⟨px, py, 1⟩] ∧
    Bresenham px py px py = [⟨px, py, 1⟩] ∧
    Wu px py px py = [⟨px, py, 1⟩] := by
  refine ⟨?_, ?_, ?_⟩
  · simp [DDA]
  · simp [Bresenham, bresAux]
  · simp [Wu]

theorem degenerate_segment_single_cell_witness :
    DDA 7 (-3) 7 (-3) = [⟨7, -3, 1⟩] ∧
    Bresenham 7 (-3) 7 (-3) = [⟨7, -3, 1⟩] ∧
    Wu 7 (-3) 7 (-3) = [⟨7, -3, 1⟩] :=
  degenerate_segment_single_cell 7 (-3)

/-- C6: a canvas click with no line, curve, or parametric algorithm
selected shows the warning and returns with the pending start coordinates
and the canvas (indeed the whole state) unchanged. -/
theorem click_without_algorithm_warns (s : AppState) (e : Event)
    (h1 : s.current_line_algorithm = none)
    (h2 : s.current_curve_algorithm = none)
    (h3 : s.current_parametric_algorithm = none) :
    on_canvas_click s e = some (s, true) := by
  simp [on_canvas_click, h1, h2, h3]

theorem click_without_algorithm_warns_witness :
    on_canvas_click (initState []) ⟨13, 27⟩ = some (initState [], true) :=
  click_without_algorithm_warns (initState []) ⟨13, 27⟩ rfl rfl rfl

/-- C8: `_set_line_algorithm` with one of the three labels changes only the
line-algorithm slot and the window title: canvas, pending start point, grid
size, debug flag, and the other two algorithm slots are untouched, and the
new selection replaces whatever was selected before. -/
theorem set_line_algorithm_only_selection_and_title (s : AppState) (lbl : String)
    (h : lbl = "DDA" ∨ lbl = "Bresenham" ∨ lbl = "Wu") :
    (set_line_algorithm s lbl).canvas = s.canvas ∧
    (set_line_algorithm s lbl).start_x = s.start_x ∧
    (set_line_algorithm s lbl).start_y = s.start_y ∧
    (set_line_algorithm s lbl).grid_size = s.grid_size ∧
    (set_line_algorithm s lbl).debug_mode = s.debug_mode ∧
    (set_line_algorithm s lbl).current_curve_algorithm = s.current_curve_algorithm ∧
    (set_line_algorithm s lbl).current_parametric_algorithm
      = s.current_parametric_algorithm ∧
    (set_line_algorithm s lbl).title = lbl ∧
    (set_line_algorithm s lbl).current_line_algorithm =
      some (if lbl = "DDA" then LineAlg.dda
            else if lbl = "Bresenham" then LineAlg.bresenham else LineAlg.wu) := by
  rcases h with rfl | rfl | rfl <;>
    simp [set_line_algorithm, uncheck_all_algorithms]

theorem set_line_algorithm_only_selection_and_title_witness :
    (set_line_algorithm sampleState "Wu").canvas = sampleState.canvas ∧
    (set_line_algorithm sampleState "Wu").start_x = sampleState.start_x ∧
    (set_line_algorithm sampleState "Wu").start_y = sampleState.start_y ∧
    (set_line_algorithm sampleState "Wu").grid_size = sampleState.grid_size ∧
    (set_line_algorithm sampleState "Wu").debug_mode = sampleState.debug_mode ∧
    (set_line_algorithm sampleState "Wu").current_curve_algorithm
      = sampleState.current_curve_algorithm ∧
    (set_line_algorithm sampleState "Wu").current_parametric_algorithm
      = sampleState.current_parametric_algorithm ∧
    (set_line_algorithm sampleState "Wu").title = "Wu" ∧
    (set_line_algorithm sampleState "Wu").current_line_algorithm =
      some (if "Wu" = "DDA" then LineAlg.dda
            else if "Wu" = "Bresenham" then LineAlg.bresenham else LineAlg.wu) :=
  set_line_algorithm_only_selection_and_title sampleState "Wu" (Or.inr (Or.inr rfl))

/-- The run-to-completion unfolding of `_draw_points_with_latency` from an
arbitrary index draws exactly the rectangles of the remaining points. -/
theorem draw_points_with_latency_eq_drop (points : List (Int × Int × String)) :
    ∀ (n index : Nat), points.length - index = n → ∀ s : AppState,
      draw_points_with_latency s points index = draw_points s (points.drop index) := by
  intro n
  induction n with
  | zero =>
    intro index hn s
    have hle : points.length ≤ index := by omega
    rw [draw_points_with_latency, dif_pos hle,
      List.drop_eq_nil_of_le hle]
    simp [draw_points]
  | succ m ih =>
    intro index hn s
    have hlt : index < points.length := by omega
    rw [draw_points_with_latency, dif_neg (by omega), ih (index + 1) (by omega),
      List.drop_eq_getElem_cons hlt]
    simp only [draw_points, List.foldl_cons, List.get_eq_getElem]

/-- C9: drawing a point list in debug mode (`_draw_points_with_latency`
started at index 0 and run to completion) produces exactly the same canvas
rectangles, in the same order, as `_draw_points`. -/
theorem debug_drawing_matches_plain (s : AppState)
    (points : List (Int × Int × String)) :
    draw_points_with_latency s points 0 = draw_points s points := by
  simpa using draw_points_with_latency_eq_drop points points.length 0 rfl s

theorem debug_drawing_matches_plain_witness :
    draw_points_with_latency sampleState [(0, 0, "red"), (2, 3, "blue")] 0
      = draw_points sampleState [(0, 0, "red"), (2, 3, "blue")] :=
  debug_drawing_matches_plain sampleState [(0, 0, "red"), (2, 3, "blue")]

/-- C10: whenever the no-algorithm guard of `_on_canvas_click` does not
return (at least one algorithm slot is non-`None`), the dispatch chain takes
one of its three branches, so the final `raise` is unreachable. -/
theorem dispatch_raise_unreachable (s : AppState) (sx sy ex ey : Int)
    (h : (s.current_line_algorithm.isSome || s.current_curve_algorithm.isSome
        || s.current_parametric_algorithm.isSome) = true) :
    (dispatchAlgorithm s sx sy ex ey).isSome = true := by
  unfold dispatchAlgorithm
  cases hl : s.current_line_algorithm <;>
    cases hc : s.current_curve_algorithm <;>
      cases hp : s.current_parametric_algorithm <;> simp_all

theorem dispatch_raise_unreachable_witness :
    (dispatchAlgorithm sampleState 0 0 4 1).isSome = true :=
  dispatch_raise_unreachable sampleState 0 0 4 1 rfl

/-- C7: `__init__` fixes the cell size at 5, and a click on a state with
that cell size maps the pixel coordinates to grid coordinates by floor
division by 5: a first click records `event.x // 5, event.y // 5` as the
start point, a second click feeds `event.x // 5, event.y // 5` to the
dispatch as the end point. -/
theorem click_maps_pixels_by_grid_division (c0 : List CanvasObj) (s : AppState)
    (e : Event) (hg : s.grid_size = 5)
    (halg : (s.current_line_algorithm.isSome || s.current_curve_algorithm.isSome
        || s.current_parametric_algorithm.isSome) = true) :
    (initState c0).grid_size = 5 ∧
    (s.start_x = none →
      on_canvas_click s e =
        some (create_oval
          { s with start_x := some (Int.fdiv e.x 5), start_y := some (Int.fdiv e.y 5) }
          (e.x - 3) (e.y - 3) (e.x + 3) (e.y + 3) "red", false)) ∧
    (∀ sx sy, s.start_x = some sx → s.start_y = some sy →
      on_canvas_click s e =
        handleSecondClick s sx sy (Int.fdiv e.x 5) (Int.fdiv e.y 5) e) := by
  refine ⟨rfl, ?_, ?_⟩
  · intro hsx
    simp [on_canvas_click, halg, hsx, hg]
  · intro sx sy hsx hsy
    simp [on_canvas_click, halg, hsx, hsy, hg]

theorem click_maps_pixels_by_grid_division_witness :
    (initState []).grid_size = 5 ∧
    (sampleState.start_x = none →
      on_canvas_click sampleState ⟨13, 27⟩ =
        some (create_oval
          { sampleState with start_x := some (Int.fdiv (13 : Int) 5),
                             start_y := some (Int.fdiv (27 : Int) 5) }
          (13 - 3) (27 - 3) (13 + 3) (27 + 3) "red", false)) ∧
    (∀ sx sy, sampleState.start_x = some sx → sampleState.start_y = some sy →
      on_canvas_click sampleState ⟨13, 27⟩ =
        handleSecondClick sampleState sx sy (Int.fdiv (13 : Int) 5)
          (Int.fdiv (27 : Int) 5) ⟨13, 27⟩) :=
  click_maps_pixels_by_grid_division [] sampleState ⟨13, 27⟩ rfl rfl

/-- C3: every pair of cells that Wu's algorithm emits at one sampled step
along the major axis carries blend weights summing exactly to 1. -/
theorem wu_pair_weights_sum (sx sy ex ey : Int) (p : Cell × Cell)
    (hp : p ∈ wuPairs sx sy ex ey) : p.1.w + p.2.w = 1 := by
  simp only [wuPairs, wuSteps] at hp
  split at hp <;>
  · simp only [List.mem_map, List.mem_range] at hp
    obtain ⟨i, -, rfl⟩ := hp
    simp

/-- `getLast?` of a cons with a nonempty tail is `getLast?` of the tail. -/
theorem getLast?_cons_of_ne_nil {A : Type} (x : A) {l : List A} (h : l ≠ []) :
    (x :: l).getLast? = l.getLast? := by
  cases l with
  | nil => cases h rfl
  | cons y t => simp [List.getLast?_cons_cons]

/-- The Bresenham error loop always emits at least one cell. -/
theorem bresAux_ne_nil (a b : Int) (plot : Int → Int → Cell) (n : Nat) (i k d : Int) :
    bresAux a b plot n i k d ≠ [] := by
  cases n with
  | zero => simp [bresAux]
  | succ m =>
    rw [bresAux]
    exact List.cons_ne_nil _ _

/-- The Bresenham error loop emits one cell per iteration. -/
theorem bresAux_length (a b : Int) (plot : Int → Int → Cell) :
    ∀ (n : Nat) (i k d : Int), (bresAux a b plot n i k d).length = n + 1 := by
  intro n
  induction n with
  | zero => intro i k d; rfl
  | succ m ih =>
    intro i k d
    rw [bresAux]
    split <;> simp [ih]

/-- The first cell emitted by the Bresenham error loop is the starting
plot position. -/
theorem bresAux_head (a b : Int) (plot : Int → Int → Cell) (n : Nat) (i k d : Int) :
    (bresAux a b plot n i k d).head? = some (plot i k) := by
  cases n <;> rfl

/-- Every cell emitted by the Bresenham error loop is a plotted position. -/
theorem bresAux_mem (a b : Int) (plot : Int → Int → Cell) :
    ∀ (n : Nat) (i k d : Int), ∀ c ∈ bresAux a b plot n i k d, ∃ j l, c = plot j l := by
  intro n
  induction n with
  | zero =>
    intro i k d c hc
    simp [bresAux] at hc
    exact ⟨i, k, hc⟩
  | succ m ih =>
    intro i k d c hc
    rw [bresAux] at hc
    rcases List.mem_cons.mp hc with h | h
    · exact ⟨i, k, h⟩
    · split at h
      · exact ih _ _ _ c h
      · exact ih _ _ _ c h

/-- The loop invariant of the Bresenham decision error: starting from a
state whose error equals `2*(i+1)*b - (2*k+1)*a` and lies in the window
`(2*b - 2*a, 2*b]`, the loop ends at major offset `i + n` with a minor
offset whose final error lies in the same window. -/
theorem bresAux_getLast (a b : Int) (hb : 0 ≤ b) (hba : b ≤ a)
    (plot : Int → Int → Cell) :
    ∀ (n : Nat) (i k d : Int),
      d = 2 * (i + 1) * b - (2 * k + 1) * a →
      2 * b - 2 * a < d → d ≤ 2 * b →
      ∃ kf : Int,
        (bresAux a b plot n i k d).getLast? = some (plot (i + n) kf) ∧
        2 * b - 2 * a < 2 * (i + n + 1) * b - (2 * kf + 1) * a ∧
        2 * (i + n + 1) * b - (2 * kf + 1) * a ≤ 2 * b := by
  intro n
  induction n with
  | zero =>
    intro i k d hd h1 h2
    refine ⟨k, ?_, ?_, ?_⟩
    · simp [bresAux]
    · push_cast
      rw [hd] at h1
      linarith
    · push_cast
      rw [hd] at h2
      linarith
  | succ m ih =>
    intro i k d hd h1 h2
    rw [bresAux]
    by_cases hdpos : 0 < d
    · rw [if_pos hdpos, getLast?_cons_of_ne_nil _ (bresAux_ne_nil _ _ _ _ _ _ _)]
      obtain ⟨kf, hlast, hl1, hl2⟩ := ih (i + 1) (k + 1) (d + 2 * b - 2 * a)
        (by rw [hd]; ring) (by linarith) (by linarith)
      have harg : i + 1 + (m : Int) = i + ((m + 1 : Nat) : Int) := by push_cast; ring
      rw [harg] at hlast
      refine ⟨kf, hlast, ?_, ?_⟩
      · have hs : i + 1 + (m : Int) + 1 = i + ((m + 1 : Nat) : Int) + 1 := by push_cast; ring
        rw [hs] at hl1
        exact hl1
      · have hs : i + 1 + (m : Int) + 1 = i + ((m + 1 : Nat) : Int) + 1 := by push_cast; ring
        rw [hs] at hl2
        exact hl2
    · rw [if_neg hdpos, getLast?_cons_of_ne_nil _ (bresAux_ne_nil _ _ _ _ _ _ _)]
      have hd0 : d ≤ 0 := by omega
      obtain ⟨kf, hlast, hl1, hl2⟩ := ih (i + 1) k (d + 2 * b)
        (by rw [hd]; ring) (by linarith) (by linarith)
      have harg : i + 1 + (m : Int) = i + ((m + 1 : Nat) : Int) := by push_cast; ring
      rw [harg] at hlast
      refine ⟨kf, hlast, ?_, ?_⟩
      · have hs : i + 1 + (m : Int) + 1 = i + ((m + 1 : Nat) : Int) + 1 := by push_cast; ring
        rw [hs] at hl1
        exact hl1
      · have hs : i + 1 + (m : Int) + 1 = i + ((m + 1 : Nat) : Int) + 1 := by push_cast; ring
        rw [hs] at hl2
        exact hl2

/-- A full run of the Bresenham error loop over major delta `a` and minor
delta `b ≤ a` lands exactly on the end plot position `(a, b)`: the minor
axis is stepped exactly `b` times. -/
theorem bresAux_run (a b : Nat) (hba : b ≤ a) (plot : Int → Int → Cell) :
    (bresAux a b plot a 0 0 (2 * b - a)).getLast? = some (plot a b) := by
  rcases Nat.eq_zero_or_pos a with ha | ha
  · subst ha
    have hb : b = 0 := Nat.le_zero.mp hba
    subst hb
    simp [bresAux]
  · have haZ : (0 : Int) < a := by exact_mod_cast ha
    have hbZ : (0 : Int) ≤ b := by positivity
    have hbaZ : (b : Int) ≤ a := by exact_mod_cast hba
    obtain ⟨kf, hlast, hl1, hl2⟩ := bresAux_getLast a b hbZ hbaZ plot a 0 0
      (2 * b - a) (by ring) (by linarith) (by linarith)
    have e1 : 2 * ((0 : Int) + a + 1) * b - (2 * kf + 1) * a - 2 * b
        = a * (2 * b - 2 * kf - 1) := by ring
    have e2 : 2 * ((0 : Int) + a + 1) * b - (2 * kf + 1) * a - (2 * b - 2 * a)
        = a * (2 * b - 2 * kf + 1) := by ring
    have h3 : 2 * (b : Int) - 2 * kf - 1 ≤ 0 := by
      by_contra hc
      push_neg at hc
      nlinarith
    have h4 : 0 < 2 * (b : Int) - 2 * kf + 1 := by
      by_contra hc
      push_neg at hc
      nlinarith
    have hkf : kf = (b : Int) := by omega
    have hz : (0 : Int) + a = a := by ring
    rw [hz, hkf] at hlast
    exact hlast

/-- C1: for every pair of endpoints, Bresenham returns exactly
`max (|dx|, |dy|) + 1` cells, all fully opaque, the first of which is the
start point and the last of which is exactly the end point. -/
theorem bresenham_count_opaque_endpoints (sx sy ex ey : Int) :
    (Bresenham sx sy ex ey).length = max (ex - sx).natAbs (ey - sy).natAbs + 1 ∧
    (∀ c ∈ Bresenham sx sy ex ey, c.w = 1) ∧
    (Bresenham sx sy ex ey).head? = some ⟨sx, sy, 1⟩ ∧
    (Bresenham sx sy ex ey).getLast? = some ⟨ex, ey, 1⟩ := by
  by_cases h : (ey - sy).natAbs ≤ (ex - sx).natAbs
  · have hB : Bresenham sx sy ex ey
        = bresAux ((ex - sx).natAbs) ((ey - sy).natAbs)
          (fun i k => ⟨sx + (ex - sx).sign * i, sy + (ey - sy).sign * k, 1⟩)
          (ex - sx).natAbs 0 0 (2 * ((ey - sy).natAbs : Int) - ((ex - sx).natAbs : Int)) := by
      simp only [Bresenham, if_pos h]
    refine ⟨?_, ?_, ?_, ?_⟩
    · rw [hB, bresAux_length, Nat.max_eq_left h]
    · intro c hc
      rw [hB] at hc
      obtain ⟨j, l, rfl⟩ := bresAux_mem _ _ _ _ _ _ _ c hc
      rfl
    · rw [hB, bresAux_head]
      simp
    · rw [hB, bresAux_run _ _ h]
      simp only [Option.some.injEq]
      rw [Int.sign_mul_natAbs, Int.sign_mul_natAbs]
      congr 1 <;> ring
  · have hlt := Nat.lt_of_not_le h
    have hle := Nat.le_of_lt hlt
    have hB : Bresenham sx sy ex ey
        = bresAux ((ey - sy).natAbs) ((ex - sx).natAbs)
          (fun i k => ⟨sx + (ex - sx).sign * k, sy + (ey - sy).sign * i, 1⟩)
          (ey - sy).natAbs 0 0 (2 * ((ex - sx).natAbs : Int) - ((ey - sy).natAbs : Int)) := by
      simp only [Bresenham, if_neg h]
    refine ⟨?_, ?_, ?_, ?_⟩
    · rw [hB, bresAux_length, Nat.max_eq_right hle]
    · intro c hc
      rw [hB] at hc
      obtain ⟨j, l, rfl⟩ := bresAux_mem _ _ _ _ _ _ _ c hc
      rfl
    · rw [hB, bresAux_head]
      simp
    · rw [hB, bresAux_run _ _ hle]
      simp only [Option.some.injEq]
      rw [Int.sign_mul_natAbs, Int.sign_mul_natAbs]
      congr 1 <;> ring

theorem bresenham_count_opaque_endpoints_witness :
    (Bresenham 0 0 4 1).length = max ((4 : Int) - 0).natAbs ((1 : Int) - 0).natAbs + 1 ∧
    (∀ c ∈ Bresenham 0 0 4 1, c.w = 1) ∧
    (Bresenham 0 0 4 1).head? = some ⟨0, 0, 1⟩ ∧
    (Bresenham 0 0 4 1).getLast? = some ⟨4, 1, 1⟩ :=
  bresenham_count_opaque_endpoints 0 0 4 1

/-- Reversing the image of `List.range (n + 1)` under `f` reindexes the map
by `n - i`. -/
theorem map_range_reverse {α : Type} (f : Nat → α) (n : Nat) :
    ((List.range (n + 1)).map f).reverse = (List.range (n + 1)).map fun i => f (n - i) := by
  induction n with
  | zero => rfl
  | succ m ih =>
    conv_lhs => rw [List.range_succ]
    conv_rhs => rw [List.range_succ_eq_map]
    rw [List.map_append, List.reverse_append, ih]
    simp only [List.map_cons, List.map_nil, List.reverse_cons, List.reverse_nil,
      List.nil_append, List.map_map, Nat.sub_zero, List.singleton_append]
    refine congrArg (List.cons (f (m + 1))) ?_
    refine congrArg (fun g => List.map g (List.range (m + 1))) ?_
    funext i
    simp [Nat.succ_sub_succ]

/-- C5, counterexample: Bresenham rasterizes (0,0)-(4,1) and (4,1)-(0,0) to
different cell sets: the forward direction passes through (2,0), the
reverse through (2,1). -/
theorem bresenham_reverse_not_same_set :
    (⟨2, 0, 1⟩ : Cell) ∈ Bresenham 0 0 4 1 ∧
    (⟨2, 0, 1⟩ : Cell) ∉ Bresenham 4 1 0 0 := by decide

/-- C5, amended: DDA rasterizes the reversed segment to exactly the
reversed cell list, hence to the same set of cells; the analogous statement
for Bresenham fails at tie configurations of the decision error. -/
theorem dda_reverse_same_cells (sx sy ex ey : Int) :
    DDA ex ey sx sy = (DDA sx sy ex ey).reverse ∧
    (∀ c : Cell, c ∈ DDA ex ey sx sy ↔ c ∈ DDA sx sy ex ey) := by
  have hrev : DDA ex ey sx sy = (DDA sx sy ex ey).reverse := by
    have hx : (sx - ex).natAbs = (ex - sx).natAbs := by omega
    have hy : (sy - ey).natAbs = (ey - sy).natAbs := by omega
    simp only [DDA, hx, hy]
    by_cases h0 : max (ex - sx).natAbs (ey - sy).natAbs = 0
    · have hmax := Nat.max_eq_zero_iff.mp h0
      have hex : ex = sx := by omega
      have hey : ey = sy := by omega
      simp [h0, hex, hey]
    · rw [if_neg h0, if_neg h0, map_range_reverse]
      apply List.map_congr_left
      intro i hi
      simp only [List.mem_range] at hi
      set n := max (ex - sx).natAbs (ey - sy).natAbs with hn
      have hin : i ≤ n := by omega
      have hnq : ((n : Nat) : ℚ) ≠ 0 := by
        exact_mod_cast h0
      have hcast : (((n - i : Nat)) : ℚ) = (n : ℚ) - (i : ℚ) := by
        push_cast [Nat.cast_sub hin]
        ring
      congr 1
      · congr 1
        rw [hcast]
        push_cast
        field_simp
        ring
      · congr 1
        rw [hcast]
        push_cast
        field_simp
        ring
  refine ⟨hrev, fun c => ?_⟩
  rw [hrev, List.mem_reverse]

theorem dda_reverse_same_cells_witness :
    DDA 4 1 0 0 = (DDA 0 0 4 1).reverse ∧
    (∀ c : Cell, c ∈ DDA 4 1 0 0 ↔ c ∈ DDA 0 0 4 1) :=
  dda_reverse_same_cells 0 0 4 1

theorem wu_pair_weights_sum_witness :
    ((⟨0, 0, 1⟩, ⟨0, 1, 0⟩) : Cell × Cell).1.w
      + ((⟨0, 0, 1⟩, ⟨0, 1, 0⟩) : Cell × Cell).2.w = 1 :=
  wu_pair_weights_sum 0 0 1 0 (⟨0, 0, 1⟩, ⟨0, 1, 0⟩) (by
    simp [wuPairs, wuSteps, wuY, List.range_succ])


/-- The accumulated Wu minor value starts exactly at the start minor
coordinate. -/
theorem wuY_zero (sm dM dm : Int) : wuY sm dM dm 0 = (sm : ℚ) := by
  simp [wuY]

/-- After all `|dM|` steps the accumulated Wu minor value lands exactly on
the end minor coordinate. -/
theorem wuY_natAbs (sm dM dm : Int) (h : dM ≠ 0) :
    wuY sm dM dm dM.natAbs = ((sm + dm : Int) : ℚ) := by
  unfold wuY
  rw [Int.sign_mul_natAbs]
  have hq : ((dM : ℚ)) ≠ 0 := Int.cast_ne_zero.mpr h
  push_cast
  field_simp

/-- A major-axis sample can sit at the start coordinate only at step 0. -/
theorem wu_index_zero (dM : Int) (hdM : dM ≠ 0) (i : Nat) (h : dM.sign * i = 0) :
    i = 0 := by
  have hs : dM.sign ≠ 0 := by
    intro h0
    exact hdM (Int.sign_eq_zero_iff_zero.mp h0)
  rcases mul_eq_zero.mp h with h1 | h1
  · exact absurd h1 hs
  · exact_mod_cast h1

/-- A major-axis sample can sit at the end coordinate only at the final
step. -/
theorem wu_index_last (dM : Int) (hdM : dM ≠ 0) (i : Nat) (h : dM.sign * i = dM) :
    (i : Int) = dM.natAbs := by
  have hs : dM.sign ≠ 0 := by
    intro h0
    exact hdM (Int.sign_eq_zero_iff_zero.mp h0)
  have h2 : dM.sign * i = dM.sign * dM.natAbs := by
    rw [Int.sign_mul_natAbs]
    exact h
  exact mul_left_cancel₀ hs h2

/-- Every pair emitted by `wuSteps` is the sample pair of some step
index. -/
theorem wuSteps_mem (sM sm dM dm : Int) (mk : Int → Int → ℚ → Cell)
    (p : Cell × Cell) (hp : p ∈ wuSteps sM sm dM dm mk) :
    ∃ i : Nat, i ≤ dM.natAbs ∧
      p.1 = mk (sM + dM.sign * i) ⌊wuY sm dM dm i⌋ (1 - Int.fract (wuY sm dM dm i)) ∧
      p.2 = mk (sM + dM.sign * i) (⌊wuY sm dM dm i⌋ + 1) (Int.fract (wuY sm dM dm i)) := by
  simp only [wuSteps, List.mem_map, List.mem_range] at hp
  obtain ⟨i, hi, rfl⟩ := hp
  exact ⟨i, by omega, rfl, rfl⟩

/-- C4: every cell that Wu's algorithm emits at one of the two true
endpoints of the segment is fully opaque, whatever the segment's
alignment. -/
theorem wu_endpoint_cells_opaque (sx sy ex ey : Int) (c : Cell)
    (hc : c ∈ Wu sx sy ex ey)
    (hpos : (c.x = sx ∧ c.y = sy) ∨ (c.x = ex ∧ c.y = ey)) : c.w = 1 := by
  unfold Wu at hc
  by_cases hdeg : sx = ex ∧ sy = ey
  · rw [if_pos hdeg] at hc
    simp at hc
    rw [hc]
  · rw [if_neg hdeg] at hc
    simp only [List.mem_flatMap] at hc
    obtain ⟨p, hp, hcp⟩ := hc
    unfold wuPairs at hp
    by_cases hxy : (ey - sy).natAbs ≤ (ex - sx).natAbs
    · rw [if_pos hxy] at hp
      have hdx : ex - sx ≠ 0 := by
        intro h0
        rw [h0] at hxy
        apply hdeg
        omega
      obtain ⟨i, hi, h1, h2⟩ := wuSteps_mem _ _ _ _ _ p hp
      simp only [List.mem_cons, List.not_mem_nil, or_false] at hcp
      rcases hcp with rfl | rfl
      · rw [h1]
        rcases hpos with ⟨hx, -⟩ | ⟨hx, -⟩
        · rw [h1] at hx
          simp only at hx
          have hi0 : i = 0 := wu_index_zero _ hdx i (by omega)
          subst hi0
          rw [wuY_zero, Int.fract_intCast]
          ring
        · rw [h1] at hx
          simp only at hx
          have hil : (i : Int) = (ex - sx).natAbs := wu_index_last _ hdx i (by omega)
          have hieq : i = (ex - sx).natAbs := by exact_mod_cast hil
          subst hieq
          rw [wuY_natAbs _ _ _ hdx, Int.fract_intCast]
          ring
      · rw [h2]
        rcases hpos with ⟨hx, hy⟩ | ⟨hx, hy⟩
        · rw [h2] at hx hy
          simp only at hx hy
          have hi0 : i = 0 := wu_index_zero _ hdx i (by omega)
          subst hi0
          rw [wuY_zero] at hy
          rw [Int.floor_intCast] at hy
          omega
        · rw [h2] at hx hy
          simp only at hx hy
          have hil : (i : Int) = (ex - sx).natAbs := wu_index_last _ hdx i (by omega)
          have hieq : i = (ex - sx).natAbs := by exact_mod_cast hil
          subst hieq
          rw [wuY_natAbs _ _ _ hdx] at hy
          rw [Int.floor_intCast] at hy
          omega
    · rw [if_neg hxy] at hp
      have hdy : ey - sy ≠ 0 := by
        intro h0
        rw [h0] at hxy
        simp at hxy
      obtain ⟨i, hi, h1, h2⟩ := wuSteps_mem _ _ _ _ _ p hp
      simp only [List.mem_cons, List.not_mem_nil, or_false] at hcp
      rcases hcp with rfl | rfl
      · rw [h1]
        rcases hpos with ⟨-, hy⟩ | ⟨-, hy⟩
        · rw [h1] at hy
          simp only at hy
          have hi0 : i = 0 := wu_index_zero _ hdy i (by omega)
          subst hi0
          rw [wuY_zero, Int.fract_intCast]
          ring
        · rw [h1] at hy
          simp only at hy
          have hil : (i : Int) = (ey - sy).natAbs := wu_index_last _ hdy i (by omega)
          have hieq : i = (ey - sy).natAbs := by exact_mod_cast hil
          subst hieq
          rw [wuY_natAbs _ _ _ hdy, Int.fract_intCast]
          ring
      · rw [h2]
        rcases hpos with ⟨hx, hy⟩ | ⟨hx, hy⟩
        · rw [h2] at hx hy
          simp only at hx hy
          have hi0 : i = 0 := wu_index_zero _ hdy i (by omega)
          subst hi0
          rw [wuY_zero] at hx
          rw [Int.floor_intCast] at hx
          omega
        · rw [h2] at hx hy
          simp only at hx hy
          have hil : (i : Int) = (ey - sy).natAbs := wu_index_last _ hdy i (by omega)
          have hieq : i = (ey - sy).natAbs := by exact_mod_cast hil
          subst hieq
          rw [wuY_natAbs _ _ _ hdy] at hx
          rw [Int.floor_intCast] at hx
          omega

theorem wu_endpoint_cells_opaque_witness : (⟨1, 0, 1⟩ : Cell).w = 1 :=
  wu_endpoint_cells_opaque 0 0 1 0 ⟨1, 0, 1⟩
    (by simp [Wu, wuPairs, wuSteps, wuY, List.range_succ])
    (Or.inr ⟨rfl, rfl⟩)
